import Mathlib

/-!
# Terrain pipeline of `src/game/game.cpp`

A shallow embedding of the procedural terrain functions of `game.cpp`
(`generateNoiseMap`, `generate_normals`, `generate_indices`, `generateVertices`,
`perlin`, `dotGridGradient`, `interpolate`, `randomGradient`) and the properties
proved about them.

Modelling conventions

* C++ `int` is modelled by `ℤ` (loop counters that only count upwards from `0` by
  `ℕ`).  Signed overflow and an out-of-range conversion `(int)x` are undefined
  behaviour in C++; `IntRange` and `perlinDefined` say when the `int` arithmetic of
  `perlin` is defined, and `perlinChecked` has no value elsewhere.
* C++ `unsigned` (32 bit) is modelled by `ℕ` with an explicit `% 2 ^ 32`.
* The mesh buffers hold `CFloat`s: a finite rational, an infinity or NaN.  The
  arithmetic on them is a parameter `A : Arith` of the mesh functions: the exact
  result of an operation on finite values is rounded by `A.rnd` and becomes an
  infinity when it exceeds the largest finite `float`; the special values follow the
  IEEE 754 rules.  `exactArith` does not round; `binary32` rounds to the nearest
  value with a 24-bit significand, ties to even.  The sign of zero is not modelled.
* The noise functions, which never divide by a run-time quantity other than
  `GRID_SIZE`, are modelled on finite values `ℚ` with exact arithmetic.
* An out-of-range `std::vector::operator[]` is undefined behaviour; the model
  returns `none` there.
* `GRID_SIZE` (127 in the source) is a parameter `G` of the functions that use it.
-/

namespace ThesisOGL

/-! ## Floating point values -/

/-- Value of a C++ `float`: a finite number, plus or minus infinity, or NaN. -/
inductive CFloat where
  | fin (q : ℚ)
  | pinf
  | ninf
  | nan
deriving DecidableEq

namespace CFloat

/-- Unary minus, which is exact. -/
def neg : CFloat → CFloat
  | fin q => fin (-q)
  | pinf => ninf
  | ninf => pinf
  | nan => nan

instance : Neg CFloat := ⟨neg⟩

/-- Infinity carrying the sign of `s`; NaN when `s = 0`. -/
def signedInf (s : ℚ) : CFloat :=
  if s = 0 then nan else if 0 < s then pinf else ninf

/-- The largest finite `float`, `FLT_MAX = (2 ^ 24 - 1) * 2 ^ 104`. -/
def maxFinite : ℚ := (2 ^ 24 - 1) * 2 ^ 104

/-- The `float` that holds the number `q`: an infinity when `q` is beyond
`FLT_MAX`. -/
def ofRat (q : ℚ) : CFloat :=
  if maxFinite < q then pinf else if q < -maxFinite then ninf else fin q

end CFloat

/-- The arithmetic of `float`: `rnd` rounds the exact result of an operation on
finite values to a representable number, `sqrt` is the library square root on finite
non-negative values (before rounding). -/
structure Arith where
  rnd : ℚ → ℚ
  sqrt : ℚ → ℚ

namespace Arith

/-- The `float` that an operation with exact result `r` returns: `r` rounded, or an
infinity on overflow. -/
def store (A : Arith) (r : ℚ) : CFloat := CFloat.ofRat (A.rnd r)

/-- Conversion `(float)z` of an `int`. -/
def ofInt (A : Arith) (z : ℤ) : CFloat := A.store (z : ℚ)

/-- Addition; `∞ + (-∞)` is NaN. -/
def add (A : Arith) : CFloat → CFloat → CFloat
  | .fin a, .fin b => A.store (a + b)
  | .fin _, .pinf => .pinf
  | .fin _, .ninf => .ninf
  | .pinf, .fin _ => .pinf
  | .pinf, .pinf => .pinf
  | .pinf, .ninf => .nan
  | .ninf, .fin _ => .ninf
  | .ninf, .ninf => .ninf
  | .ninf, .pinf => .nan
  | .nan, _ => .nan
  | _, .nan => .nan

/-- Subtraction `a - b = a + (-b)`. -/
def sub (A : Arith) (a b : CFloat) : CFloat := A.add a (-b)

/-- Multiplication; `0 * ∞` is NaN. -/
def mul (A : Arith) : CFloat → CFloat → CFloat
  | .fin a, .fin b => A.store (a * b)
  | .fin a, .pinf => CFloat.signedInf a
  | .fin a, .ninf => CFloat.signedInf (-a)
  | .pinf, .fin b => CFloat.signedInf b
  | .ninf, .fin b => CFloat.signedInf (-b)
  | .pinf, .pinf => .pinf
  | .pinf, .ninf => .ninf
  | .ninf, .pinf => .ninf
  | .ninf, .ninf => .pinf
  | .nan, _ => .nan
  | _, .nan => .nan

/-- Division; a non-zero finite value over zero is an infinity, a finite value over
an infinity is zero, `0 / 0` and `∞ / ∞` are NaN. -/
def div (A : Arith) : CFloat → CFloat → CFloat
  | .fin a, .fin b => if b = 0 then CFloat.signedInf a else A.store (a / b)
  | .fin _, .pinf => .fin 0
  | .fin _, .ninf => .fin 0
  | .pinf, .fin b => if 0 ≤ b then .pinf else .ninf
  | .ninf, .fin b => if 0 ≤ b then .ninf else .pinf
  | .pinf, .pinf => .nan
  | .pinf, .ninf => .nan
  | .ninf, .pinf => .nan
  | .ninf, .ninf => .nan
  | .nan, _ => .nan
  | _, .nan => .nan

/-- Square root (`sqrt` of the C++ library on a `float`). -/
def sqrtF (A : Arith) : CFloat → CFloat
  | .fin q => if q < 0 then .nan else A.store (A.sqrt q)
  | .pinf => .pinf
  | .ninf => .nan
  | .nan => .nan

end Arith

/-- Exact arithmetic: no rounding; `sqrt` is the square root used. -/
def exactArith (sqrt : ℚ → ℚ) : Arith := ⟨fun r => r, sqrt⟩

/-- Rounding of `t` to the nearest integer, ties to the even one. -/
def roundHalfEven (t : ℚ) : ℤ :=
  if t - (⌊t⌋ : ℚ) < 1 / 2 then ⌊t⌋
  else if 1 / 2 < t - (⌊t⌋ : ℚ) then ⌊t⌋ + 1
  else if ⌊t⌋ % 2 = 0 then ⌊t⌋ else ⌊t⌋ + 1

/-- Rounding to binary32 (IEEE 754 single precision, round to nearest, ties to even,
exponent not bounded above): with `e` the exponent of the leading bit of `q`, not
below `-126`, the result is the multiple of `2 ^ (e - 23)` nearest to `q`. -/
def round32 (q : ℚ) : ℚ :=
  if q = 0 then 0
  else (roundHalfEven (q / 2 ^ (max (Int.log 2 |q|) (-126) - 23)) : ℚ) *
    2 ^ (max (Int.log 2 |q|) (-126) - 23)

/-- The square root of `q` truncated to 200 binary places, far more than the
rounding to binary32 needs to give the correctly rounded square root of a
`float`. -/
def sqrtTrunc (q : ℚ) : ℚ := (Nat.sqrt ⌊q * 4 ^ 200⌋₊ : ℚ) / 2 ^ 200

/-- The arithmetic of an IEEE 754 binary32 `float`. -/
def binary32 : Arith := ⟨round32, sqrtTrunc⟩

/-! ## `glm::vec3` -/

/-- Model of `glm::vec3`. -/
structure Vec3 where
  x : CFloat
  y : CFloat
  z : CFloat
deriving DecidableEq

namespace Vec3

/-- Componentwise `operator-` of `glm::vec3`. -/
def sub (A : Arith) (a b : Vec3) : Vec3 := ⟨A.sub a.x b.x, A.sub a.y b.y, A.sub a.z b.z⟩

/-- Unary `operator-` of `glm::vec3`. -/
def neg (a : Vec3) : Vec3 := ⟨-a.x, -a.y, -a.z⟩

/-- Scaling `v * s` of `glm::vec3` by a scalar. -/
def scale (A : Arith) (v : Vec3) (s : CFloat) : Vec3 :=
  ⟨A.mul v.x s, A.mul v.y s, A.mul v.z s⟩

instance : Neg Vec3 := ⟨neg⟩

end Vec3

/-- Model of `glm::cross`:
`(x.y * y.z - y.y * x.z, x.z * y.x - y.z * x.x, x.x * y.y - y.x * x.y)`. -/
def cross (A : Arith) (x y : Vec3) : Vec3 :=
  ⟨A.sub (A.mul x.y y.z) (A.mul y.y x.z), A.sub (A.mul x.z y.x) (A.mul y.z x.x),
    A.sub (A.mul x.x y.y) (A.mul y.x x.y)⟩

/-- Model of `glm::dot` on `vec3`: the sum of the componentwise products. -/
def dot (A : Arith) (a b : Vec3) : CFloat :=
  A.add (A.add (A.mul a.x b.x) (A.mul a.y b.y)) (A.mul a.z b.z)

/-- Model of `glm::inversesqrt`: `1 / sqrt(x)`. -/
def inversesqrt (A : Arith) (x : CFloat) : CFloat :=
  A.div (CFloat.fin 1) (A.sqrtF x)

/-- Model of `glm::normalize`: `v * inversesqrt(dot(v, v))`, with no test for a zero
length. -/
def normalize (A : Arith) (v : Vec3) : Vec3 :=
  v.scale A (inversesqrt A (dot A v v))

/-! ## Mesh construction -/

/-- Read of `v[i]` for an `int` index `i`: `none` when `i` is outside the vector. -/
def readAt {α : Type} (v : List α) (i : ℤ) : Option α :=
  if i < 0 then none else v[i.toNat]?

/-- Model of `generate_indices` (lines 374-402): the two nested loops over `y` and
`x`, appending six indices for every cell that is not in the last column or row. -/
def generate_indices (G : ℤ) : List ℤ :=
  (List.range G.toNat).foldl (fun (indices : List ℤ) (y : ℕ) =>
    (List.range G.toNat).foldl (fun (indices : List ℤ) (x : ℕ) =>
      let pos : ℤ := (x : ℤ) + (y : ℤ) * G
      if (x : ℤ) = G - 1 ∨ (y : ℤ) = G - 1 then
        indices
      else
        indices ++ [pos + G, pos, pos + G + 1, pos + 1, pos + 1 + G, pos])
      indices)
    []

/-- Model of `generateVertices` (lines 404-419): for every `y` and `x` push
`(float)x / GRID_SIZE`, `noiseMap[x + y * GRID_SIZE]` and `(float)y / GRID_SIZE`. -/
def generateVertices (A : Arith) (G : ℤ) (noiseMap : List CFloat) :
    Option (List CFloat) :=
  (List.range G.toNat).foldlM (fun (vertices : List CFloat) (y : ℕ) =>
    (List.range G.toNat).foldlM (fun (vertices : List CFloat) (x : ℕ) => do
      let h ← readAt noiseMap ((x : ℤ) + (y : ℤ) * G)
      pure (vertices ++
        [A.div (A.ofInt x) (A.ofInt G), h, A.div (A.ofInt y) (A.ofInt G)]))
      vertices)
    []

/-- State of the loop of `generate_normals`: the vectors `verts` and `normals`. -/
structure NormalsState where
  verts : List Vec3
  normals : List CFloat

/-- One pass of the inner loop of `generate_normals` (lines 354-358):
`pos = indices[i + j] * 3`, then push `(vertices[pos], vertices[pos + 1],
vertices[pos + 2])` on `verts`. -/
def pushVertex (indices : List ℤ) (vertices : List CFloat) (i : ℕ)
    (verts : List Vec3) (j : ℕ) : Option (List Vec3) := do
  let idx ← indices[i + j]?
  let pos : ℤ := idx * 3
  let a ← readAt vertices pos
  let b ← readAt vertices (pos + 1)
  let c ← readAt vertices (pos + 2)
  pure (verts ++ [⟨a, b, c⟩])

/-- One pass of the outer loop of `generate_normals` (lines 350-369) for the loop
counter `i`: the inner loop over `j = 0, 1, 2`, then the edges `U = verts[i + 1] -
verts[i]`, `V = verts[i + 2] - verts[i]` and the push of
`normalize(-cross(U, V))`. -/
def normalsBody (A : Arith) (indices : List ℤ) (vertices : List CFloat)
    (st : NormalsState) (i : ℕ) : Option NormalsState := do
  let verts ← (List.range 3).foldlM (pushVertex indices vertices i) st.verts
  let v0 ← verts[i]?
  let v1 ← verts[i + 1]?
  let v2 ← verts[i + 2]?
  let U := Vec3.sub A v1 v0
  let V := Vec3.sub A v2 v0
  let normal := normalize A (-(cross A U V))
  pure ⟨verts, st.normals ++ [normal.x, normal.y, normal.z]⟩

/-- Model of `generate_normals` (lines 341-372): the loop counter `i` takes the
values `0, 3, 6, ...` below `indices.size()`, which are `(size + 2) / 3` values. -/
def generate_normals (A : Arith) (indices : List ℤ) (vertices : List CFloat) :
    Option (List CFloat) :=
  ((List.range' 0 ((indices.length + 2) / 3) 3).foldlM
    (normalsBody A indices vertices) ⟨[], []⟩).map (fun st => st.normals)

/-- Vertex number `idx` of a vertex array: the three floats at `idx * 3`,
`idx * 3 + 1` and `idx * 3 + 2`, when all three are inside the array. -/
def vertexAt (vertices : List CFloat) (idx : ℤ) : Option Vec3 := do
  let a ← readAt vertices (idx * 3)
  let b ← readAt vertices (idx * 3 + 1)
  let c ← readAt vertices (idx * 3 + 2)
  pure ⟨a, b, c⟩

/-- The three positions referenced by `indices[3k]`, `indices[3k+1]` and
`indices[3k+2]`. -/
def triangleAt (indices : List ℤ) (vertices : List CFloat) (k : ℕ) :
    Option (Vec3 × Vec3 × Vec3) := do
  let i0 ← indices[3 * k]?
  let i1 ← indices[3 * k + 1]?
  let i2 ← indices[3 * k + 2]?
  let v0 ← vertexAt vertices i0
  let v1 ← vertexAt vertices i1
  let v2 ← vertexAt vertices i2
  pure (v0, v1, v2)

/-- Face normal of a triangle as the specification words it:
`normalize(-cross(v1 - v0, v2 - v0))`. -/
def faceNormal (A : Arith) (v0 v1 v2 : Vec3) : Vec3 :=
  normalize A (-(cross A (Vec3.sub A v1 v0) (Vec3.sub A v2 v0)))

/-! ## Noise -/

/-- The value of the conversion `(int)x` of a finite `float`: truncation toward zero.
The conversion is defined only when this value is in the range of `int`
(`perlinDefined`). -/
def toInt (x : ℚ) : ℤ := if 0 ≤ x then ⌊x⌋ else ⌈x⌉

/-- The range of a 32-bit `int`. -/
def IntRange (z : ℤ) : Prop := -2147483648 ≤ z ∧ z ≤ 2147483647

/-- Model of `interpolate` (lines 454-457). -/
def interpolate (a0 a1 w : ℚ) : ℚ := (a1 - a0) * (3 - w * 2) * w * w + a0

/-- Model of `dotGridGradient` (lines 444-452); the gradient is
`glm::vec2(ix, iy)`. -/
def dotGridGradient (ix iy : ℤ) (x y : ℚ) : ℚ :=
  let gradient : ℚ × ℚ := ((ix : ℚ), (iy : ℚ))
  let dx := x - (ix : ℚ)
  let dy := y - (iy : ℚ)
  dx * gradient.1 + dy * gradient.2

/-- The hash of `randomGradient` (lines 461-470) on 32-bit `unsigned` values: the
final value of `a`. -/
def gradientHash (ix iy : ℤ) : ℕ :=
  let w : ℕ := 8 * 4
  let s : ℕ := w / 2
  let a : ℕ := (ix % 2 ^ 32).toNat
  let b : ℕ := (iy % 2 ^ 32).toNat
  let a := a * 3284157443 % 2 ^ 32
  let b := b ^^^ (((a <<< s) % 2 ^ 32) ||| (a >>> (w - s)))
  let b := b * 1911520717 % 2 ^ 32
  let a := a ^^^ (((b <<< s) % 2 ^ 32) ||| (b >>> (w - s)))
  let a := a * 2048419325 % 2 ^ 32
  a

/-- Model of `randomGradient` (lines 459-479): the angle
`a * (3.14159265 / ~(~0u >> 1))`, where `~(~0u >> 1)` is `2 ^ 31`, then
`(sin(random), cos(random))` for the library functions `sin` and `cos`. -/
def randomGradient (sin cos : ℚ → ℚ) (ix iy : ℤ) : ℚ × ℚ :=
  let random : ℚ := (gradientHash ix iy : ℚ) * (3.14159265 / 2 ^ 31)
  (sin random, cos random)

/-- The lattice cell and weights computed at the start of `perlin`. -/
structure Cell where
  x0 : ℤ
  y0 : ℤ
  x1 : ℤ
  y1 : ℤ
  sx : ℚ
  sy : ℚ

/-- Lines 423-429 of `perlin`: `x0 = (int)x`, `y0 = (int)y`, `x1 = x0 + 1`,
`y1 = y0 + 1`, `sx = x - x0`, `sy = y - y0`. -/
def perlinCell (x y : ℚ) : Cell :=
  let x0 := toInt x
  let y0 := toInt y
  let x1 := x0 + 1
  let y1 := y0 + 1
  let sx := x - (x0 : ℚ)
  let sy := y - (y0 : ℚ)
  ⟨x0, y0, x1, y1, sx, sy⟩

/-- Model of `perlin` (lines 421-442): the value returned when the `int` arithmetic
is defined. -/
def perlin (x y : ℚ) : ℚ :=
  let c := perlinCell x y
  let n0 := dotGridGradient c.x0 c.y0 x y
  let n1 := dotGridGradient c.x1 c.y0 x y
  let ix0 := interpolate n0 n1 c.sx
  let n0 := dotGridGradient c.x0 c.y1 x y
  let n1 := dotGridGradient c.x1 c.y1 x y
  let ix1 := interpolate n0 n1 c.sx
  let value := interpolate ix0 ix1 c.sy
  value

/-- The `int` arithmetic of `perlin(x, y)` is defined: the conversions `(int)x` and
`(int)y` are in the range of `int`, and so are `x0 + 1` and `y0 + 1`. -/
def perlinDefined (x y : ℚ) : Prop :=
  IntRange (toInt x) ∧ IntRange (toInt y) ∧ IntRange (toInt x + 1) ∧ IntRange (toInt y + 1)

instance (z : ℤ) : Decidable (IntRange z) := by
  unfold IntRange
  infer_instance

instance (x y : ℚ) : Decidable (perlinDefined x y) := by
  unfold perlinDefined
  infer_instance

/-- The function `perlin` with its `int` arithmetic checked: there is no value when a
conversion `(int)x`, `(int)y` or an increment `x0 + 1`, `y0 + 1` leaves the range of
`int`, which is undefined behaviour in C++. -/
def perlinChecked (x y : ℚ) : Option ℚ :=
  if perlinDefined x y then some (perlin x y) else none

/-- The lattice cell the specification describes for `(x, y)`: `x0 = floor(x)`,
`x1 = x0 + 1`, the same for `y`, and both weights in `[0, 1)`. -/
def CellIsFloor (x y : ℚ) : Prop :=
  (perlinCell x y).x0 = ⌊x⌋ ∧ (perlinCell x y).x1 = ⌊x⌋ + 1 ∧
  (perlinCell x y).y0 = ⌊y⌋ ∧ (perlinCell x y).y1 = ⌊y⌋ + 1 ∧
  0 ≤ (perlinCell x y).sx ∧ (perlinCell x y).sx < 1 ∧
  0 ≤ (perlinCell x y).sy ∧ (perlinCell x y).sy < 1

/-! ## Auxiliary definitions for the statements and proofs -/

/-- The index triple `(a, b, c)` as the three consecutive entries of an index list. -/
def tripleList (t : ℤ × ℤ × ℤ) : List ℤ := [t.1, t.2.1, t.2.2]

/-- The two index triples pushed by `generate_indices` for the cell `(x, y)`. -/
def quadTriangles (G : ℤ) (x y : ℕ) : List (ℤ × ℤ × ℤ) :=
  [((x : ℤ) + y * G + G, (x : ℤ) + y * G, (x : ℤ) + y * G + G + 1),
   ((x : ℤ) + y * G + 1, (x : ℤ) + y * G + 1 + G, (x : ℤ) + y * G)]

/-- The index triples of the grid, cell after cell, for the cells outside the last
column and the last row. -/
def gridTriangles (G : ℤ) : List (ℤ × ℤ × ℤ) :=
  (List.range (G - 1).toNat).flatMap (fun y =>
    (List.range (G - 1).toNat).flatMap (fun x => quadTriangles G x y))

/-- The three floats pushed by `generateVertices` for the cell `(x, y)`, when the
read of the noise map is in range. -/
def cellVertex (A : Arith) (G : ℤ) (noiseMap : List CFloat) (x y : ℕ) : List CFloat :=
  [A.div (A.ofInt x) (A.ofInt G), noiseMap.getD (x + y * G.toNat) CFloat.nan,
    A.div (A.ofInt y) (A.ofInt G)]

/-- The three floats pushed on `normals` for the index triple `t`, when `pos` gives
the position of every vertex index. -/
def normalComps (A : Arith) (pos : ℤ → Vec3) (t : ℤ × ℤ × ℤ) : List CFloat :=
  [(faceNormal A (pos t.1) (pos t.2.1) (pos t.2.2)).x,
   (faceNormal A (pos t.1) (pos t.2.1) (pos t.2.2)).y,
   (faceNormal A (pos t.1) (pos t.2.1) (pos t.2.2)).z]

/-- Every vertex index of the triple `t` is in range, with position given by `pos`. -/
def TripleAt (vertices : List CFloat) (pos : ℤ → Vec3) (t : ℤ × ℤ × ℤ) : Prop :=
  vertexAt vertices t.1 = some (pos t.1) ∧ vertexAt vertices t.2.1 = some (pos t.2.1) ∧
    vertexAt vertices t.2.2 = some (pos t.2.2)

/-- Grouping of an index list into triples, three entries at a time. -/
def toTriples : List ℤ → List (ℤ × ℤ × ℤ)
  | a :: b :: c :: rest => (a, b, c) :: toTriples rest
  | _ => []

/-- Position of vertex `idx`, with NaN components when `idx` is out of range. -/
def vertexD (vertices : List CFloat) (idx : ℤ) : Vec3 :=
  (vertexAt vertices idx).getD ⟨CFloat.nan, CFloat.nan, CFloat.nan⟩

/-- The three collinear points `(0,0,0)`, `(1,0,0)`, `(2,0,0)`. -/
def collinearVertices : List CFloat :=
  [CFloat.fin 0, CFloat.fin 0, CFloat.fin 0, CFloat.fin 1, CFloat.fin 0, CFloat.fin 0,
    CFloat.fin 2, CFloat.fin 0, CFloat.fin 0]

theorem foldl_push {α β : Type} (f : α → List β) (l : List α) (init : List β) :
    l.foldl (fun acc a => acc ++ f a) init = init ++ l.flatMap f := by
  induction l generalizing init with
  | nil => simp
  | cons a l ih => simp [List.foldl_cons, ih, List.flatMap_cons, List.append_assoc]

theorem foldlM_push {α β : Type} (step : List β → α → Option (List β)) (f : α → List β)
    (l : List α) (h : ∀ a ∈ l, ∀ acc, step acc a = some (acc ++ f a)) (init : List β) :
    l.foldlM step init = some (init ++ l.flatMap f) := by
  induction l generalizing init with
  | nil => simp
  | cons a l ih =>
    have ha := h a (List.mem_cons_self a l)
    have hl : ∀ b ∈ l, ∀ acc, step acc b = some (acc ++ f b) :=
      fun b hb => h b (List.mem_cons_of_mem a hb)
    simp [List.foldlM_cons, ha, ih hl, List.flatMap_cons, List.append_assoc]

theorem length_flatMap_const {α β : Type} (f : α → List β) (n : ℕ) (l : List α)
    (h : ∀ a ∈ l, (f a).length = n) : (l.flatMap f).length = l.length * n := by
  induction l with
  | nil => simp
  | cons a l ih =>
    have ha := h a (List.mem_cons_self a l)
    have hl : ∀ b ∈ l, (f b).length = n := fun b hb => h b (List.mem_cons_of_mem a hb)
    simp [List.flatMap_cons, ha, ih hl, Nat.succ_mul, Nat.add_comm]

theorem flatMap_range_drop_last {β : Type} (f : ℕ → List β) (n : ℕ) (h : f n = []) :
    (List.range (n + 1)).flatMap f = (List.range n).flatMap f := by
  simp [List.range_succ, List.flatMap_append, h]

theorem flatMap_congr_mem {α β : Type} (f g : α → List β) (l : List α)
    (h : ∀ a ∈ l, f a = g a) : l.flatMap f = l.flatMap g := by
  induction l with
  | nil => simp
  | cons a l ih =>
    have ha := h a (List.mem_cons_self a l)
    have hl : ∀ b ∈ l, f b = g b := fun b hb => h b (List.mem_cons_of_mem a hb)
    simp [List.flatMap_cons, ha, ih hl]

/-- The cells of `generate_indices` as a `flatMap`: a cell of the last column or row
contributes nothing. -/
theorem generate_indices_eq_flatMap (G : ℤ) :
    generate_indices G =
      (List.range G.toNat).flatMap (fun y => (List.range G.toNat).flatMap (fun x =>
        if (x : ℤ) = G - 1 ∨ (y : ℤ) = G - 1 then []
        else (quadTriangles G x y).flatMap tripleList)) := by
  unfold generate_indices
  have inner : ∀ (y : ℕ) (acc : List ℤ),
      (List.range G.toNat).foldl (fun (indices : List ℤ) (x : ℕ) =>
        let pos : ℤ := (x : ℤ) + (y : ℤ) * G
        if (x : ℤ) = G - 1 ∨ (y : ℤ) = G - 1 then indices
        else indices ++ [pos + G, pos, pos + G + 1, pos + 1, pos + 1 + G, pos]) acc
      = acc ++ (List.range G.toNat).flatMap (fun x =>
          if (x : ℤ) = G - 1 ∨ (y : ℤ) = G - 1 then []
          else (quadTriangles G x y).flatMap tripleList) := by
    intro y acc
    rw [← foldl_push]
    congr 1
    funext indices x
    by_cases hc : (x : ℤ) = G - 1 ∨ (y : ℤ) = G - 1
    · simp [hc]
    · simp [hc, quadTriangles, tripleList]
  simp only [inner]
  rw [foldl_push]
  simp

theorem generate_indices_eq_grid (G : ℤ) :
    generate_indices G = (gridTriangles G).flatMap tripleList := by
  rw [generate_indices_eq_flatMap, gridTriangles]
  rcases le_or_lt G 0 with hG | hG
  · have h1 : G.toNat = 0 := Int.toNat_of_nonpos hG
    have h2 : (G - 1).toNat = 0 := Int.toNat_of_nonpos (by omega)
    simp [h1, h2]
  · obtain ⟨n, rfl⟩ : ∃ n : ℕ, G = (n : ℤ) + 1 := ⟨(G - 1).toNat, by omega⟩
    have h1 : ((n : ℤ) + 1).toNat = n + 1 := by omega
    have h2 : ((n : ℤ) + 1 - 1).toNat = n := by omega
    rw [h1, h2, flatMap_range_drop_last, List.flatMap_assoc]
    · apply flatMap_congr_mem
      intro y hy
      rw [flatMap_range_drop_last, List.flatMap_assoc]
      · apply flatMap_congr_mem
        intro x hx
        have hx1 : x < n := List.mem_range.mp hx
        have hy1 : y < n := List.mem_range.mp hy
        have hc : ¬ ((x : ℤ) = (n : ℤ) + 1 - 1 ∨ (y : ℤ) = (n : ℤ) + 1 - 1) := by omega
        rw [if_neg hc]
      · simp
    · simp

theorem readAt_natCast {α : Type} (v : List α) (n : ℕ) : readAt v (n : ℤ) = v[n]? := by
  simp [readAt]

theorem readAt_of_lt {α : Type} (v : List α) (i : ℤ) (h0 : 0 ≤ i) (h1 : i < v.length) :
    ∃ a, readAt v i = some a := by
  obtain ⟨n, rfl⟩ := Int.eq_ofNat_of_zero_le h0
  have hn : n < v.length := by exact_mod_cast h1
  exact ⟨v[n], by rw [readAt_natCast, List.getElem?_eq_getElem hn]⟩

theorem generateVertices_eq (A : Arith) (G : ℤ) (noiseMap : List CFloat)
    (hlen : G * G ≤ (noiseMap.length : ℤ)) :
    generateVertices A G noiseMap =
      some ((List.range G.toNat).flatMap (fun y =>
        (List.range G.toNat).flatMap (fun x => cellVertex A G noiseMap x y))) := by
  unfold generateVertices
  have key := foldlM_push
    (fun (vertices : List CFloat) (y : ℕ) =>
      (List.range G.toNat).foldlM (fun (vertices : List CFloat) (x : ℕ) => do
        let h ← readAt noiseMap ((x : ℤ) + (y : ℤ) * G)
        pure (vertices ++
          [A.div (A.ofInt x) (A.ofInt G), h, A.div (A.ofInt y) (A.ofInt G)]))
        vertices)
    (fun y => (List.range G.toNat).flatMap (fun x => cellVertex A G noiseMap x y))
    (List.range G.toNat) ?_ []
  · simpa using key
  · intro y hy acc
    apply foldlM_push
    intro x hx acc2
    have hx1 : x < G.toNat := List.mem_range.mp hx
    have hy1 : y < G.toNat := List.mem_range.mp hy
    have hG : (G.toNat : ℤ) = G := Int.toNat_of_nonneg (by omega)
    have hidx : (x : ℤ) + (y : ℤ) * G = ((x + y * G.toNat : ℕ) : ℤ) := by
      push_cast
      rw [hG]
    have hlt : x + y * G.toNat < noiseMap.length := by
      have h1 : x + y * G.toNat < G.toNat * G.toNat := by nlinarith
      have h2 : ((G.toNat * G.toNat : ℕ) : ℤ) ≤ noiseMap.length := by
        push_cast
        rw [hG]
        exact hlen
      have h3 : G.toNat * G.toNat ≤ noiseMap.length := by exact_mod_cast h2
      omega
    rw [hidx, readAt_natCast, List.getElem?_eq_getElem hlt]
    simp [cellVertex, List.getD_eq_getElem?_getD, List.getElem?_eq_getElem hlt]

theorem length_gridTriangles (G : ℤ) :
    (gridTriangles G).length = (G - 1).toNat * ((G - 1).toNat * 2) := by
  unfold gridTriangles
  rw [length_flatMap_const _ ((G - 1).toNat * 2), List.length_range]
  intro y _
  rw [length_flatMap_const _ 2, List.length_range]
  intro x _
  simp [quadTriangles]

theorem length_flatMap_tripleList (l : List (ℤ × ℤ × ℤ)) :
    (l.flatMap tripleList).length = l.length * 3 :=
  length_flatMap_const _ 3 l (fun _ _ => by simp [tripleList])

theorem length_generateVertices_grid (A : Arith) (G : ℤ) (noiseMap : List CFloat) :
    ((List.range G.toNat).flatMap (fun y =>
        (List.range G.toNat).flatMap (fun x => cellVertex A G noiseMap x y))).length
      = G.toNat * (G.toNat * 3) := by
  rw [length_flatMap_const _ (G.toNat * 3), List.length_range]
  intro y _
  rw [length_flatMap_const _ 3, List.length_range]
  intro x _
  simp [cellVertex]

/-- Claim C1: For every grid size `G ≥ 1` and every noise map with at least `G * G`
samples, whatever the arithmetic, `generateVertices` returns a vertex array of
exactly `3 * G * G` floats (`G * G` vertices) and `generate_indices` returns exactly
`6 * (G - 1) * (G - 1)` indices (`2 * (G - 1) * (G - 1)` triangles). -/
theorem mesh_sizes (A : Arith) (G : ℤ) (hG : 1 ≤ G) (noiseMap : List CFloat)
    (hlen : G * G ≤ (noiseMap.length : ℤ)) :
    (∃ vertices, generateVertices A G noiseMap = some vertices ∧
      (vertices.length : ℤ) = 3 * (G * G)) ∧
    ((generate_indices G).length : ℤ) = 3 * (2 * (G - 1) * (G - 1)) := by
  constructor
  · refine ⟨_, generateVertices_eq A G noiseMap hlen, ?_⟩
    rw [length_generateVertices_grid]
    have hG0 : (G.toNat : ℤ) = G := Int.toNat_of_nonneg (by omega)
    push_cast
    rw [hG0]
    ring
  · rw [generate_indices_eq_grid, length_flatMap_tripleList, length_gridTriangles]
    have hG1 : ((G - 1).toNat : ℤ) = G - 1 := Int.toNat_of_nonneg (by omega)
    push_cast
    rw [hG1]
    ring

/-- The 3×3 grid: 9 vertices (27 floats) and 8 triangles (24 indices). -/
theorem mesh_sizes_witness :
    (∃ vertices, generateVertices binary32 3 (List.replicate 9 (CFloat.fin 0)) =
        some vertices ∧
      (vertices.length : ℤ) = 3 * (3 * 3)) ∧
    ((generate_indices 3).length : ℤ) = 3 * (2 * (3 - 1) * (3 - 1)) :=
  mesh_sizes binary32 3 (by decide) (List.replicate 9 (CFloat.fin 0)) (by decide)

theorem mem_gridTriangles {G : ℤ} {t : ℤ × ℤ × ℤ} (h : t ∈ gridTriangles G) :
    ∃ x y : ℕ, (x : ℤ) < G - 1 ∧ (y : ℤ) < G - 1 ∧ t ∈ quadTriangles G x y := by
  unfold gridTriangles at h
  rw [List.mem_flatMap] at h
  obtain ⟨y, hy, h⟩ := h
  rw [List.mem_flatMap] at h
  obtain ⟨x, hx, h⟩ := h
  have hx1 := List.mem_range.mp hx
  have hy1 := List.mem_range.mp hy
  exact ⟨x, y, by omega, by omega, h⟩

theorem vertexAt_isSome_of_range (vertices : List CFloat) (idx : ℤ) (h0 : 0 ≤ idx)
    (h1 : idx * 3 + 2 < vertices.length) : (vertexAt vertices idx).isSome = true := by
  obtain ⟨a, ha⟩ := readAt_of_lt vertices (idx * 3) (by omega) (by omega)
  obtain ⟨b, hb⟩ := readAt_of_lt vertices (idx * 3 + 1) (by omega) (by omega)
  obtain ⟨c, hc⟩ := readAt_of_lt vertices (idx * 3 + 2) (by omega) (by omega)
  simp [vertexAt, ha, hb, hc]

/-! ## The loop of `generate_normals` -/

theorem pushVertex_eq (indices : List ℤ) (vertices : List CFloat) (i j : ℕ)
    (verts : List Vec3) (idx : ℤ) (v : Vec3) (hi : indices[i + j]? = some idx)
    (hv : vertexAt vertices idx = some v) :
    pushVertex indices vertices i verts j = some (verts ++ [v]) := by
  unfold pushVertex
  unfold vertexAt at hv
  rw [hi]
  cases ha : readAt vertices (idx * 3) with
  | none => simp [ha] at hv
  | some a =>
    cases hb : readAt vertices (idx * 3 + 1) with
    | none => simp [ha, hb] at hv
    | some b =>
      cases hc : readAt vertices (idx * 3 + 2) with
      | none => simp [ha, hb, hc] at hv
      | some c =>
        simp [ha, hb, hc] at hv
        simp [ha, hb, hc, hv]

/-- One pass of the outer loop when `verts` holds exactly `i` entries: the entries
`verts[i]`, `verts[i + 1]`, `verts[i + 2]` read after the inner loop are the three
positions that this pass has just pushed. -/
theorem normalsBody_eq (A : Arith) (pre rest : List ℤ) (vertices : List CFloat)
    (pos : ℤ → Vec3) (t : ℤ × ℤ × ℤ) (st : NormalsState)
    (hst : st.verts.length = pre.length) (ht : TripleAt vertices pos t) :
    normalsBody A (pre ++ (tripleList t ++ rest)) vertices st pre.length =
      some ⟨st.verts ++ [pos t.1, pos t.2.1, pos t.2.2],
        st.normals ++ normalComps A pos t⟩ := by
  obtain ⟨h0, h1, h2⟩ := ht
  have i0 : (pre ++ (tripleList t ++ rest))[pre.length + 0]? = some t.1 := by
    rw [List.getElem?_append_right (by omega)]
    simp [tripleList]
  have i1 : (pre ++ (tripleList t ++ rest))[pre.length + 1]? = some t.2.1 := by
    rw [List.getElem?_append_right (by omega)]
    simp [tripleList]
  have i2 : (pre ++ (tripleList t ++ rest))[pre.length + 2]? = some t.2.2 := by
    rw [List.getElem?_append_right (by omega)]
    simp [tripleList]
  have hpush : (List.range 3).foldlM
      (pushVertex (pre ++ (tripleList t ++ rest)) vertices pre.length) st.verts =
      some (st.verts ++ [pos t.1, pos t.2.1, pos t.2.2]) := by
    have hr : List.range 3 = [0, 1, 2] := by decide
    rw [hr]
    simp only [List.foldlM_cons, List.foldlM_nil]
    rw [pushVertex_eq _ _ _ _ _ _ _ i0 h0]
    simp only [Option.bind_eq_bind, Option.some_bind]
    rw [pushVertex_eq _ _ _ _ _ _ _ i1 h1]
    simp only [Option.some_bind]
    rw [pushVertex_eq _ _ _ _ _ _ _ i2 h2]
    simp
  have v0 : (st.verts ++ [pos t.1, pos t.2.1, pos t.2.2])[pre.length]? = some (pos t.1) := by
    rw [List.getElem?_append_right (by omega)]
    simp [hst]
  have v1 : (st.verts ++ [pos t.1, pos t.2.1, pos t.2.2])[pre.length + 1]? =
      some (pos t.2.1) := by
    rw [List.getElem?_append_right (by omega)]
    simp [hst]
  have v2 : (st.verts ++ [pos t.1, pos t.2.1, pos t.2.2])[pre.length + 2]? =
      some (pos t.2.2) := by
    rw [List.getElem?_append_right (by omega)]
    simp [hst]
  unfold normalsBody
  rw [hpush]
  simp only [Option.bind_eq_bind, Option.some_bind, v0, v1, v2]
  simp [normalComps, faceNormal]

theorem normals_loop (A : Arith) (vertices : List CFloat) (pos : ℤ → Vec3)
    (tris : List (ℤ × ℤ × ℤ)) :
    ∀ (pre : List ℤ) (st : NormalsState), st.verts.length = pre.length →
      (∀ t ∈ tris, TripleAt vertices pos t) →
      (List.range' pre.length tris.length 3).foldlM
          (normalsBody A (pre ++ tris.flatMap tripleList) vertices) st =
        some ⟨st.verts ++ tris.flatMap (fun t => [pos t.1, pos t.2.1, pos t.2.2]),
          st.normals ++ tris.flatMap (normalComps A pos)⟩ := by
  induction tris with
  | nil =>
    intro pre st _ _
    simp
  | cons t ts ih =>
    intro pre st hst h
    have ht := h t (List.mem_cons_self t ts)
    have hts : ∀ u ∈ ts, TripleAt vertices pos u :=
      fun u hu => h u (List.mem_cons_of_mem t hu)
    rw [List.length_cons, List.range'_succ, List.foldlM_cons, List.flatMap_cons,
      normalsBody_eq A pre _ vertices pos t st hst ht]
    have hpre : (pre ++ tripleList t).length = pre.length + 3 := by simp [tripleList]
    have hstep := ih (pre ++ tripleList t)
      ⟨st.verts ++ [pos t.1, pos t.2.1, pos t.2.2], st.normals ++ normalComps A pos t⟩
      (by simp [hst, tripleList]) hts
    rw [hpre, List.append_assoc] at hstep
    simp only [Option.bind_eq_bind, Option.some_bind]
    rw [hstep]
    simp [List.flatMap_cons, List.append_assoc]

/-- The result of `generate_normals` on an index list made of the triples `tris`, all
of whose vertex indices are in range: one face normal per triple, in order. -/
theorem generate_normals_flatMap (A : Arith) (vertices : List CFloat) (pos : ℤ → Vec3)
    (tris : List (ℤ × ℤ × ℤ)) (h : ∀ t ∈ tris, TripleAt vertices pos t) :
    generate_normals A (tris.flatMap tripleList) vertices =
      some (tris.flatMap (normalComps A pos)) := by
  unfold generate_normals
  have hcount : ((tris.flatMap tripleList).length + 2) / 3 = tris.length := by
    rw [length_flatMap_tripleList]
    omega
  have hloop := normals_loop A vertices pos tris [] ⟨[], []⟩ rfl h
  simp only [List.length_nil, List.nil_append] at hloop
  rw [hcount, hloop]
  simp

/-! ## Index view of chunked lists -/

theorem getElem?_flatMap_chunk {α β : Type} (f : α → List β) (n : ℕ) (l : List α)
    (hf : ∀ a ∈ l, (f a).length = n) (k j : ℕ) (hj : j < n) (a : α)
    (hk : l[k]? = some a) : (l.flatMap f)[n * k + j]? = (f a)[j]? := by
  induction l generalizing k with
  | nil => simp at hk
  | cons b l ih =>
    have hb := hf b (List.mem_cons_self b l)
    have hl : ∀ c ∈ l, (f c).length = n := fun c hc => hf c (List.mem_cons_of_mem b hc)
    rw [List.flatMap_cons]
    cases k with
    | zero =>
      simp only [List.getElem?_cons_zero, Option.some.injEq] at hk
      subst hk
      rw [Nat.mul_zero, Nat.zero_add, List.getElem?_append_left (by omega)]
    | succ k =>
      simp only [List.getElem?_cons_succ] at hk
      rw [List.getElem?_append_right (by rw [hb, Nat.mul_succ]; omega)]
      have hidx : n * (k + 1) + j - (f b).length = n * k + j := by
        rw [hb, Nat.mul_succ]
        omega
      rw [hidx]
      exact ih hl k hk

theorem toTriples_spec (m : ℕ) : ∀ l : List ℤ, l.length = 3 * m →
    (toTriples l).flatMap tripleList = l ∧ (toTriples l).length = m ∧
      ∀ t ∈ toTriples l, t.1 ∈ l ∧ t.2.1 ∈ l ∧ t.2.2 ∈ l := by
  induction m with
  | zero =>
    intro l hl
    have : l = [] := List.length_eq_zero.mp (by omega)
    subst this
    simp [toTriples]
  | succ m ih =>
    intro l hl
    match l, hl with
    | a :: b :: c :: rest, hl =>
      have hrest : rest.length = 3 * m := by
        simp only [List.length_cons] at hl
        omega
      obtain ⟨h1, h2, h3⟩ := ih rest hrest
      refine ⟨?_, ?_, ?_⟩
      · simp [toTriples, List.flatMap_cons, tripleList, h1]
      · simp [toTriples, h2]
      · intro t ht
        simp only [toTriples, List.mem_cons] at ht
        rcases ht with rfl | ht
        · simp
        · obtain ⟨u1, u2, u3⟩ := h3 t ht
          simp [u1, u2, u3]
    | [], hl => simp at hl
    | [_], hl => simp at hl; omega
    | [_, _], hl => simp at hl; omega

theorem vertexAt_eq_vertexD (vertices : List CFloat) (idx : ℤ) (h0 : 0 ≤ idx)
    (h1 : idx * 3 + 2 < vertices.length) :
    vertexAt vertices idx = some (vertexD vertices idx) := by
  have h := vertexAt_isSome_of_range vertices idx h0 h1
  obtain ⟨v, hv⟩ := Option.isSome_iff_exists.mp h
  simp [vertexD, hv]

/-- The normals of a well-formed index list, triangle by triangle. -/
theorem generate_normals_index (A : Arith) (vertices : List CFloat) (pos : ℤ → Vec3)
    (tris : List (ℤ × ℤ × ℤ)) (h : ∀ t ∈ tris, TripleAt vertices pos t) :
    ∃ normals, generate_normals A (tris.flatMap tripleList) vertices = some normals ∧
      normals.length = 3 * tris.length ∧
      ∀ k t, tris[k]? = some t →
        triangleAt (tris.flatMap tripleList) vertices k =
          some (pos t.1, pos t.2.1, pos t.2.2) ∧
        normals[3 * k]? = some (faceNormal A (pos t.1) (pos t.2.1) (pos t.2.2)).x ∧
        normals[3 * k + 1]? = some (faceNormal A (pos t.1) (pos t.2.1) (pos t.2.2)).y ∧
        normals[3 * k + 2]? = some (faceNormal A (pos t.1) (pos t.2.1) (pos t.2.2)).z := by
  refine ⟨_, generate_normals_flatMap A vertices pos tris h, ?_, ?_⟩
  · rw [length_flatMap_const _ 3 tris (fun _ _ => by simp [normalComps])]
    omega
  · intro k t hk
    have hmem : t ∈ tris := List.getElem?_mem hk
    obtain ⟨p0, p1, p2⟩ := h t hmem
    have hI : ∀ j, j < 3 → (tris.flatMap tripleList)[3 * k + j]? = (tripleList t)[j]? :=
      fun j hj => getElem?_flatMap_chunk tripleList 3 tris
        (fun _ _ => by simp [tripleList]) k j hj t hk
    have hN : ∀ j, j < 3 →
        (tris.flatMap (normalComps A pos))[3 * k + j]? = (normalComps A pos t)[j]? :=
      fun j hj => getElem?_flatMap_chunk (normalComps A pos) 3 tris
        (fun _ _ => by simp [normalComps]) k j hj t hk
    have i0 := hI 0 (by omega)
    have i1 := hI 1 (by omega)
    have i2 := hI 2 (by omega)
    have n0 := hN 0 (by omega)
    have n1 := hN 1 (by omega)
    have n2 := hN 2 (by omega)
    simp only [Nat.add_zero] at i0 n0
    refine ⟨?_, ?_, ?_, ?_⟩
    · unfold triangleAt
      rw [i0, i1, i2]
      simp [tripleList, p0, p1, p2]
    · rw [n0]
      simp [normalComps]
    · rw [n1]
      simp [normalComps]
    · rw [n2]
      simp [normalComps]

/-- For an index list whose length is a multiple of 3 and whose entries are
valid vertex indices, `generate_normals` returns exactly one normal (3 floats) per
triangle, and the `k`-th normal is `normalize(-cross(v1 - v0, v2 - v0))` for the
positions `v0, v1, v2` referenced by `indices[3k]`, `indices[3k+1]`, `indices[3k+2]`:
the entries `verts[i]`, `verts[i+1]`, `verts[i+2]` read by the loop are the current
triangle's own vertices. -/
theorem generate_normals_spec (A : Arith) (indices : List ℤ)
    (vertices : List CFloat) (m : ℕ) (hlen : indices.length = 3 * m)
    (hvalid : ∀ idx ∈ indices, 0 ≤ idx ∧ idx * 3 + 2 < (vertices.length : ℤ)) :
    ∃ normals, generate_normals A indices vertices = some normals ∧
      normals.length = 3 * m ∧
      ∀ k, k < m → ∃ v0 v1 v2, triangleAt indices vertices k = some (v0, v1, v2) ∧
        normals[3 * k]? = some (faceNormal A v0 v1 v2).x ∧
        normals[3 * k + 1]? = some (faceNormal A v0 v1 v2).y ∧
        normals[3 * k + 2]? = some (faceNormal A v0 v1 v2).z := by
  obtain ⟨hflat, hcount, hmem⟩ := toTriples_spec m indices hlen
  have hT : ∀ t ∈ toTriples indices, TripleAt vertices (vertexD vertices) t := by
    intro t ht
    obtain ⟨m0, m1, m2⟩ := hmem t ht
    exact ⟨vertexAt_eq_vertexD vertices _ (hvalid _ m0).1 (hvalid _ m0).2,
      vertexAt_eq_vertexD vertices _ (hvalid _ m1).1 (hvalid _ m1).2,
      vertexAt_eq_vertexD vertices _ (hvalid _ m2).1 (hvalid _ m2).2⟩
  obtain ⟨normals, hgen, hl, hk⟩ :=
    generate_normals_index A vertices (vertexD vertices) (toTriples indices) hT
  rw [hflat] at hgen hk
  refine ⟨normals, hgen, by rw [hl, hcount], ?_⟩
  intro k hkm
  have hlt : k < (toTriples indices).length := by omega
  obtain ⟨h1, h2, h3, h4⟩ := hk k _ (List.getElem?_eq_getElem hlt)
  exact ⟨_, _, _, h1, h2, h3, h4⟩

/-- Claim C10: For an index list whose length is a multiple of 3 and whose entries are
valid vertex indices, `generate_normals` returns exactly one normal (3 floats) per
triangle, and the `k`-th normal is `normalize(-cross(v1 - v0, v2 - v0))` for the
positions `v0, v1, v2` referenced by `indices[3k]`, `indices[3k+1]`, `indices[3k+2]`:
the entries `verts[i]`, `verts[i+1]`, `verts[i+2]` read by the loop are the current
triangle's own vertices. -/
theorem generate_normals_per_triangle (A : Arith) (indices : List ℤ)
    (vertices : List CFloat) (m : ℕ) (hlen : indices.length = 3 * m)
    (hvalid : ∀ idx ∈ indices, 0 ≤ idx ∧ idx * 3 + 2 < (vertices.length : ℤ)) :
    ∃ normals, generate_normals A indices vertices = some normals ∧
      normals.length = 3 * m ∧
      ∀ k, k < m → ∃ v0 v1 v2, triangleAt indices vertices k = some (v0, v1, v2) ∧
        normals[3 * k]? = some (faceNormal A v0 v1 v2).x ∧
        normals[3 * k + 1]? = some (faceNormal A v0 v1 v2).y ∧
        normals[3 * k + 2]? = some (faceNormal A v0 v1 v2).z :=
  generate_normals_spec A indices vertices m hlen hvalid

/-- Two triangles sharing an edge over three vertices of the unit square. -/
theorem generate_normals_per_triangle_witness :
    ∃ normals, generate_normals (exactArith Rat.sqrt) [0, 1, 2, 2, 1, 0]
        [CFloat.fin 0, CFloat.fin 0, CFloat.fin 0, CFloat.fin 1, CFloat.fin 0, CFloat.fin 0,
          CFloat.fin 0, CFloat.fin 0, CFloat.fin 1] = some normals ∧
      normals.length = 3 * 2 ∧
      ∀ k, k < 2 → ∃ v0 v1 v2, triangleAt [0, 1, 2, 2, 1, 0]
          [CFloat.fin 0, CFloat.fin 0, CFloat.fin 0, CFloat.fin 1, CFloat.fin 0, CFloat.fin 0,
            CFloat.fin 0, CFloat.fin 0, CFloat.fin 1] k = some (v0, v1, v2) ∧
        normals[3 * k]? = some (faceNormal (exactArith Rat.sqrt) v0 v1 v2).x ∧
        normals[3 * k + 1]? = some (faceNormal (exactArith Rat.sqrt) v0 v1 v2).y ∧
        normals[3 * k + 2]? = some (faceNormal (exactArith Rat.sqrt) v0 v1 v2).z :=
  generate_normals_per_triangle (exactArith Rat.sqrt) [0, 1, 2, 2, 1, 0] _ 2 (by decide)
    (by decide)

theorem generate_indices_bounds (G : ℤ) (idx : ℤ) (hidx : idx ∈ generate_indices G) :
    0 ≤ idx ∧ idx < G * G := by
  rw [generate_indices_eq_grid, List.mem_flatMap] at hidx
  obtain ⟨t, ht, hmem⟩ := hidx
  obtain ⟨x, y, hx, hy, hq⟩ := mem_gridTriangles ht
  have hx0 : (0 : ℤ) ≤ x := Int.natCast_nonneg x
  have hy0 : (0 : ℤ) ≤ y := Int.natCast_nonneg y
  have h1 : 0 ≤ (y : ℤ) * G := by
    have : 0 ≤ G := by omega
    positivity
  have h2 : ((y : ℤ) + 2) * G ≤ G * G := by nlinarith
  simp only [quadTriangles, List.mem_cons, List.mem_singleton, List.not_mem_nil,
    or_false] at hq
  rcases hq with rfl | rfl <;>
    simp only [tripleList, List.mem_cons, List.mem_singleton, List.not_mem_nil,
      or_false] at hmem <;>
    rcases hmem with rfl | rfl | rfl <;> constructor <;> nlinarith

/-- Claim C6: for every grid size `G ≥ 1`, every index emitted by `generate_indices`
is `≥ 0` and `< G * G`, so the three reads `idx * 3`, `idx * 3 + 1`, `idx * 3 + 2`
that `generate_normals` makes for it fall inside a vertex array of `3 * G * G`
floats, and `generate_normals` on such an array never reads out of range. -/
theorem generate_indices_in_range (G : ℤ) (hG : 1 ≤ G) :
    (∀ idx ∈ generate_indices G,
      (0 ≤ idx ∧ idx < G * G) ∧ (0 ≤ idx * 3 ∧ idx * 3 + 2 < 3 * (G * G))) ∧
    ∀ (A : Arith) (vertices : List CFloat), (vertices.length : ℤ) = 3 * (G * G) →
      ∃ normals, generate_normals A (generate_indices G) vertices = some normals := by
  have hb : ∀ idx ∈ generate_indices G,
      (0 ≤ idx ∧ idx < G * G) ∧ (0 ≤ idx * 3 ∧ idx * 3 + 2 < 3 * (G * G)) := by
    intro idx hidx
    have h := generate_indices_bounds G idx hidx
    exact ⟨h, by omega, by omega⟩
  refine ⟨hb, ?_⟩
  intro A vertices hv
  have hlen : (generate_indices G).length = 3 * (gridTriangles G).length := by
    rw [generate_indices_eq_grid, length_flatMap_tripleList, Nat.mul_comm]
  have hG0 : 0 < G := by omega
  obtain ⟨normals, hgen, _⟩ := generate_normals_spec A (generate_indices G) vertices
    (gridTriangles G).length hlen
    (fun idx hidx => ⟨(hb idx hidx).1.1, by rw [hv]; exact (hb idx hidx).2.2⟩)
  exact ⟨normals, hgen⟩

/-- The index `4` of the 3×3 grid. -/
theorem generate_indices_in_range_witness :
    (4 : ℤ) ∈ generate_indices 3 ∧
      ((0 ≤ (4 : ℤ) ∧ (4 : ℤ) < 3 * 3) ∧ (0 ≤ (4 : ℤ) * 3 ∧ (4 : ℤ) * 3 + 2 < 3 * (3 * 3))) :=
  ⟨by decide, (generate_indices_in_range 3 (by decide)).1 4 (by decide)⟩

/-! ## Arithmetic on finite values -/

namespace CFloat

theorem neg_fin (a : ℚ) : -fin a = fin (-a) := rfl

theorem maxFinite_pos : 0 < maxFinite := by
  norm_num [maxFinite]

theorem ofRat_of_abs_le (q : ℚ) (h : |q| ≤ maxFinite) : ofRat q = fin q := by
  have h1 := (abs_le.mp h).1
  have h2 := (abs_le.mp h).2
  simp [ofRat, not_lt.mpr h1, not_lt.mpr h2]

theorem ofRat_zero : ofRat 0 = fin 0 :=
  ofRat_of_abs_le 0 (by simpa using maxFinite_pos.le)

theorem ofRat_of_gt (q : ℚ) (h : maxFinite < q) : ofRat q = pinf := by
  simp [ofRat, h]

end CFloat

namespace Arith

theorem add_fin (A : Arith) (a b : ℚ) :
    A.add (CFloat.fin a) (CFloat.fin b) = A.store (a + b) := rfl

theorem sub_fin (A : Arith) (a b : ℚ) :
    A.sub (CFloat.fin a) (CFloat.fin b) = A.store (a - b) := by
  show A.add (CFloat.fin a) (CFloat.fin (-b)) = A.store (a - b)
  rw [add_fin, sub_eq_add_neg]

theorem mul_fin (A : Arith) (a b : ℚ) :
    A.mul (CFloat.fin a) (CFloat.fin b) = A.store (a * b) := rfl

theorem div_zero_of_pos (A : Arith) (a : ℚ) (ha : 0 < a) :
    A.div (CFloat.fin a) (CFloat.fin 0) = CFloat.pinf := by
  simp [div, CFloat.signedInf, ha, ha.ne']

theorem div_pinf (A : Arith) (a : ℚ) : A.div (CFloat.fin a) CFloat.pinf = CFloat.fin 0 := rfl

theorem zero_mul_pinf (A : Arith) : A.mul (CFloat.fin 0) CFloat.pinf = CFloat.nan := by
  simp [mul, CFloat.signedInf]

theorem sqrtF_fin (A : Arith) (q : ℚ) (hq : 0 ≤ q) :
    A.sqrtF (CFloat.fin q) = A.store (A.sqrt q) := by
  simp [sqrtF, not_lt.mpr hq]

theorem store_zero (A : Arith) (h : A.rnd 0 = 0) : A.store 0 = CFloat.fin 0 := by
  rw [store, h, CFloat.ofRat_zero]

end Arith

theorem exact_store (s : ℚ → ℚ) (r : ℚ) (h : |r| ≤ CFloat.maxFinite) :
    (exactArith s).store r = CFloat.fin r :=
  CFloat.ofRat_of_abs_le r h

theorem exact_store_of_gt (s : ℚ → ℚ) (r : ℚ) (h : CFloat.maxFinite < r) :
    (exactArith s).store r = CFloat.pinf :=
  CFloat.ofRat_of_gt r h

theorem Vec3.neg_mk (a b c : CFloat) : -(⟨a, b, c⟩ : Vec3) = ⟨-a, -b, -c⟩ := rfl

theorem Vec3.sub_mk (A : Arith) (a b c d e f : CFloat) :
    Vec3.sub A ⟨a, b, c⟩ ⟨d, e, f⟩ = ⟨A.sub a d, A.sub b e, A.sub c f⟩ := rfl

/-- The face normal of a triangle whose edge cross product is the zero vector: the
length is zero, its inverse is infinite, and every component is `0 * ∞`. -/
theorem normalize_neg_zero (A : Arith) (hr : A.rnd 0 = 0) (hs : A.sqrt 0 = 0) :
    normalize A (-(⟨CFloat.fin 0, CFloat.fin 0, CFloat.fin 0⟩ : Vec3)) =
      ⟨CFloat.nan, CFloat.nan, CFloat.nan⟩ := by
  have h0 := A.store_zero hr
  rw [Vec3.neg_mk]
  simp only [normalize, Vec3.scale, inversesqrt, dot, CFloat.neg_fin, neg_zero,
    Arith.mul_fin, Arith.add_fin, mul_zero, add_zero, h0]
  rw [A.sqrtF_fin 0 le_rfl, hs, h0, A.div_zero_of_pos 1 one_pos, A.zero_mul_pinf]

/-- Claim C5, amended: `generate_normals` has no guard for a degenerate triangle: when
the edge cross product of triangle `k` is the zero vector, the normal is obtained by
normalizing with a zero length, and its three components are NaN.  This holds in
every arithmetic that rounds zero to zero and has `sqrt(0) = 0`. -/
theorem generate_normals_degenerate (A : Arith) (hrnd : A.rnd 0 = 0) (hsqrt : A.sqrt 0 = 0)
    (indices : List ℤ) (vertices : List CFloat) (m : ℕ) (hlen : indices.length = 3 * m)
    (hvalid : ∀ idx ∈ indices, 0 ≤ idx ∧ idx * 3 + 2 < (vertices.length : ℤ))
    (k : ℕ) (hk : k < m) (v0 v1 v2 : Vec3)
    (htri : triangleAt indices vertices k = some (v0, v1, v2))
    (hdeg : cross A (Vec3.sub A v1 v0) (Vec3.sub A v2 v0) =
      ⟨CFloat.fin 0, CFloat.fin 0, CFloat.fin 0⟩) :
    ∃ normals, generate_normals A indices vertices = some normals ∧
      normals[3 * k]? = some CFloat.nan ∧ normals[3 * k + 1]? = some CFloat.nan ∧
      normals[3 * k + 2]? = some CFloat.nan := by
  obtain ⟨normals, hgen, _, hall⟩ := generate_normals_spec A indices vertices m hlen hvalid
  obtain ⟨w0, w1, w2, hw, n0, n1, n2⟩ := hall k hk
  rw [htri] at hw
  simp only [Option.some.injEq, Prod.mk.injEq] at hw
  obtain ⟨rfl, rfl, rfl⟩ := hw
  have hn : faceNormal A v0 v1 v2 = ⟨CFloat.nan, CFloat.nan, CFloat.nan⟩ := by
    rw [faceNormal, hdeg, normalize_neg_zero A hrnd hsqrt]
  rw [hn] at n0 n1 n2
  exact ⟨normals, hgen, n0, n1, n2⟩

theorem rat_sqrt_zero : Rat.sqrt 0 = 0 := by
  simp

theorem triangleAt_collinear :
    triangleAt [0, 1, 2] collinearVertices 0 =
      some (⟨CFloat.fin 0, CFloat.fin 0, CFloat.fin 0⟩,
        ⟨CFloat.fin 1, CFloat.fin 0, CFloat.fin 0⟩,
        ⟨CFloat.fin 2, CFloat.fin 0, CFloat.fin 0⟩) := by
  simp [triangleAt, vertexAt, readAt, collinearVertices]

theorem cross_collinear :
    cross (exactArith Rat.sqrt)
      (Vec3.sub (exactArith Rat.sqrt) (⟨CFloat.fin 1, CFloat.fin 0, CFloat.fin 0⟩ : Vec3)
        ⟨CFloat.fin 0, CFloat.fin 0, CFloat.fin 0⟩)
      (Vec3.sub (exactArith Rat.sqrt) (⟨CFloat.fin 2, CFloat.fin 0, CFloat.fin 0⟩ : Vec3)
        ⟨CFloat.fin 0, CFloat.fin 0, CFloat.fin 0⟩) =
      ⟨CFloat.fin 0, CFloat.fin 0, CFloat.fin 0⟩ := by
  have h0 : (exactArith Rat.sqrt).store 0 = CFloat.fin 0 :=
    exact_store _ _ (by norm_num [CFloat.maxFinite])
  have h1 : (exactArith Rat.sqrt).store 1 = CFloat.fin 1 :=
    exact_store _ _ (by norm_num [CFloat.maxFinite])
  have h2 : (exactArith Rat.sqrt).store 2 = CFloat.fin 2 :=
    exact_store _ _ (by norm_num [CFloat.maxFinite])
  simp [cross, Vec3.sub_mk, Arith.sub_fin, Arith.mul_fin, h0, h1, h2]

/-- The collinear triangle: its three components are NaN. -/
theorem generate_normals_degenerate_witness :
    ∃ normals, generate_normals (exactArith Rat.sqrt) [0, 1, 2] collinearVertices =
        some normals ∧
      normals[3 * 0]? = some CFloat.nan ∧ normals[3 * 0 + 1]? = some CFloat.nan ∧
      normals[3 * 0 + 2]? = some CFloat.nan :=
  generate_normals_degenerate (exactArith Rat.sqrt) rfl rat_sqrt_zero [0, 1, 2]
    collinearVertices 1 (by decide) (by decide) 0 (by decide) _ _ _ triangleAt_collinear
    cross_collinear

/-- Claim C5, counterexample: For the collinear triangle `(0,0,0)`, `(1,0,0)`,
`(2,0,0)` the edge cross product is the zero vector and `generate_normals` returns
three NaN components, not `(0, 0, 0)`. -/
theorem degenerate_normal_counterexample :
    triangleAt [0, 1, 2] collinearVertices 0 =
      some (⟨CFloat.fin 0, CFloat.fin 0, CFloat.fin 0⟩,
        ⟨CFloat.fin 1, CFloat.fin 0, CFloat.fin 0⟩,
        ⟨CFloat.fin 2, CFloat.fin 0, CFloat.fin 0⟩) ∧
    cross (exactArith Rat.sqrt)
      (Vec3.sub (exactArith Rat.sqrt) (⟨CFloat.fin 1, CFloat.fin 0, CFloat.fin 0⟩ : Vec3)
        ⟨CFloat.fin 0, CFloat.fin 0, CFloat.fin 0⟩)
      (Vec3.sub (exactArith Rat.sqrt) (⟨CFloat.fin 2, CFloat.fin 0, CFloat.fin 0⟩ : Vec3)
        ⟨CFloat.fin 0, CFloat.fin 0, CFloat.fin 0⟩) =
      ⟨CFloat.fin 0, CFloat.fin 0, CFloat.fin 0⟩ ∧
    generate_normals (exactArith Rat.sqrt) [0, 1, 2] collinearVertices =
      some [CFloat.nan, CFloat.nan, CFloat.nan] ∧
    generate_normals (exactArith Rat.sqrt) [0, 1, 2] collinearVertices ≠
      some [CFloat.fin 0, CFloat.fin 0, CFloat.fin 0] := by
  have hT : ∀ t ∈ [((0 : ℤ), (1 : ℤ), (2 : ℤ))],
      TripleAt collinearVertices (vertexD collinearVertices) t := by
    intro t ht
    rw [List.mem_singleton] at ht
    subst ht
    exact ⟨vertexAt_eq_vertexD _ _ (by decide) (by decide),
      vertexAt_eq_vertexD _ _ (by decide) (by decide),
      vertexAt_eq_vertexD _ _ (by decide) (by decide)⟩
  have hv0 : vertexD collinearVertices 0 = ⟨CFloat.fin 0, CFloat.fin 0, CFloat.fin 0⟩ := by
    simp [vertexD, vertexAt, readAt, collinearVertices]
  have hv1 : vertexD collinearVertices 1 = ⟨CFloat.fin 1, CFloat.fin 0, CFloat.fin 0⟩ := by
    simp [vertexD, vertexAt, readAt, collinearVertices]
  have hv2 : vertexD collinearVertices 2 = ⟨CFloat.fin 2, CFloat.fin 0, CFloat.fin 0⟩ := by
    simp [vertexD, vertexAt, readAt, collinearVertices]
  have hgen : generate_normals (exactArith Rat.sqrt) [0, 1, 2] collinearVertices =
      some [CFloat.nan, CFloat.nan, CFloat.nan] := by
    have h := generate_normals_flatMap (exactArith Rat.sqrt) collinearVertices
      (vertexD collinearVertices) [((0 : ℤ), (1 : ℤ), (2 : ℤ))] hT
    simp only [List.flatMap_cons, List.flatMap_nil, List.append_nil, tripleList, normalComps,
      faceNormal, hv0, hv1, hv2, cross_collinear,
      normalize_neg_zero (exactArith Rat.sqrt) rfl rat_sqrt_zero] at h
    exact h
  refine ⟨triangleAt_collinear, cross_collinear, hgen, ?_⟩
  rw [hgen]
  decide

/-! ## Evaluating binary32 arithmetic -/

theorem toInt_intCast (m : ℤ) : toInt (m : ℚ) = m := by
  unfold toInt
  split <;> simp

theorem interpolate_zero_weight (a0 a1 : ℚ) : interpolate a0 a1 0 = a0 := by
  simp [interpolate]

theorem perlinCell_intCast (m n : ℤ) :
    perlinCell (m : ℚ) (n : ℚ) = ⟨m, n, m + 1, n + 1, 0, 0⟩ := by
  simp [perlinCell, toInt_intCast]

theorem perlin_intCast (m n : ℤ) : perlin (m : ℚ) (n : ℚ) = 0 := by
  unfold perlin
  rw [perlinCell_intCast]
  simp only [interpolate_zero_weight]
  simp [dotGridGradient]

theorem perlinChecked_intCast (m n : ℤ) (hm : IntRange m) (hm1 : IntRange (m + 1))
    (hn : IntRange n) (hn1 : IntRange (n + 1)) :
    perlinChecked (m : ℚ) (n : ℚ) = some 0 := by
  have hd : perlinDefined (m : ℚ) (n : ℚ) := by
    unfold perlinDefined
    rw [toInt_intCast, toInt_intCast]
    exact ⟨hm, hn, hm1, hn1⟩
  rw [perlinChecked, if_pos hd, perlin_intCast]

/-- Claim C3, amended: At every pair of integer-valued coordinates `(m, n)`, positive,
zero or negative, for which `m`, `n`, `m + 1` and `n + 1` are in the range of `int`,
the single-octave noise `perlin` is defined and is exactly `0`: both weights are `0`,
so the three interpolations return the value of the corner `(x0, y0)`, whose offset
vector is zero. -/
theorem perlin_lattice (m n : ℤ) (hm : IntRange m) (hm1 : IntRange (m + 1))
    (hn : IntRange n) (hn1 : IntRange (n + 1)) :
    perlinChecked (m : ℚ) (n : ℚ) = some 0 :=
  perlinChecked_intCast m n hm hm1 hn hn1

/-- The lattice point `(3, -4)`. -/
theorem perlin_lattice_witness :
    (IntRange 3 ∧ IntRange (3 + 1) ∧ IntRange (-4) ∧ IntRange (-4 + 1)) ∧
      perlinChecked ((3 : ℤ) : ℚ) ((-4 : ℤ) : ℚ) = some 0 :=
  ⟨by decide, perlin_lattice 3 (-4) (by decide) (by decide) (by decide) (by decide)⟩

/-- Claim C3, counterexample: The integer-valued coordinate `3000000000` (a value of
type `float`) is outside the range of `int`, so the conversion `(int)x` in
`perlin(3000000000, 0)` is undefined and `perlin` has no value there, not the
value `0`. -/
theorem perlin_lattice_counterexample :
    toInt 3000000000 = 3000000000 ∧ ¬ IntRange (toInt 3000000000) ∧
      perlinChecked 3000000000 0 = none ∧ perlinChecked 3000000000 0 ≠ some 0 := by
  have ht : toInt 3000000000 = 3000000000 := by
    have h := toInt_intCast 3000000000
    simpa using h
  have hr : ¬ IntRange (toInt 3000000000) := by
    rw [ht]
    decide
  have hd : ¬ perlinDefined 3000000000 0 := fun h => hr h.1
  have hc : perlinChecked 3000000000 0 = none := by
    rw [perlinChecked, if_neg hd]
  refine ⟨ht, hr, hc, ?_⟩
  rw [hc]
  exact fun h => Option.noConfusion h

theorem gradientHash_zero : gradientHash 0 0 = 0 := by
  decide

/-- Claim C8, the code at the failing input: `dotGridGradient` takes the corner coordinates
themselves as the gradient: its value is `(x - ix) * ix + (y - iy) * iy`, and
`randomGradient` is not used.  At the corner `(0, 0)` and the query point
`(1/2, 1/2)` it returns `0`, while the hash of `randomGradient` gives the angle `0`
there, that is the gradient `(sin 0, cos 0)`. -/
theorem dotGridGradient_uses_coordinates :
    (∀ (ix iy : ℤ) (x y : ℚ),
      dotGridGradient ix iy x y = (x - (ix : ℚ)) * (ix : ℚ) + (y - (iy : ℚ)) * (iy : ℚ)) ∧
    dotGridGradient 0 0 (1 / 2) (1 / 2) = 0 ∧
    ∀ sin cos : ℚ → ℚ, randomGradient sin cos 0 0 = (sin 0, cos 0) := by
  refine ⟨fun ix iy x y => rfl, by simp [dotGridGradient], ?_⟩
  intro sin cos
  simp [randomGradient, gradientHash_zero]

theorem toInt_eq_floor_iff (x : ℚ) : toInt x = ⌊x⌋ ↔ (0 ≤ x ∨ ((⌊x⌋ : ℤ) : ℚ) = x) := by
  unfold toInt
  by_cases h : 0 ≤ x
  · simp [h]
  · rw [if_neg h]
    constructor
    · intro hc
      right
      have h1 : ((⌊x⌋ : ℤ) : ℚ) ≤ x := Int.floor_le x
      have h2 : x ≤ ((⌈x⌉ : ℤ) : ℚ) := Int.le_ceil x
      rw [hc] at h2
      exact le_antisymm h1 h2
    · rintro (h0 | hint)
      · exact absurd h0 h
      · rw [← hint, Int.ceil_intCast, Int.floor_intCast]

theorem cell_floor_iff (x y : ℚ) :
    CellIsFloor x y ↔
      (0 ≤ x ∨ ((⌊x⌋ : ℤ) : ℚ) = x) ∧ (0 ≤ y ∨ ((⌊y⌋ : ℤ) : ℚ) = y) := by
  unfold CellIsFloor perlinCell
  constructor
  · rintro ⟨hx, _, hy, _⟩
    exact ⟨(toInt_eq_floor_iff x).mp hx, (toInt_eq_floor_iff y).mp hy⟩
  · rintro ⟨hx, hy⟩
    have ex := (toInt_eq_floor_iff x).mpr hx
    have ey := (toInt_eq_floor_iff y).mpr hy
    simp only [ex, ey]
    have fx0 : ((⌊x⌋ : ℤ) : ℚ) ≤ x := Int.floor_le x
    have fx1 : x < ((⌊x⌋ : ℤ) : ℚ) + 1 := Int.lt_floor_add_one x
    have fy0 : ((⌊y⌋ : ℤ) : ℚ) ≤ y := Int.floor_le y
    have fy1 : y < ((⌊y⌋ : ℤ) : ℚ) + 1 := Int.lt_floor_add_one y
    refine ⟨trivial, trivial, trivial, trivial, ?_, ?_, ?_, ?_⟩ <;> linarith

/-- Claim C9, amended: For every query point `(x, y)` at which the `int` arithmetic of
`perlin` is defined (the conversions `(int)x`, `(int)y` and the increments `x0 + 1`,
`y0 + 1` are in the range of `int`), `perlin` returns a value, and the cell it uses
is the one the specification describes (`x0 = floor(x)`, `x1 = x0 + 1`, the same for
`y`, both weights in `[0, 1)`) exactly when each coordinate is non-negative or
integer-valued: the cast `(int)x` truncates toward zero, which is `floor` only
there. -/
theorem perlin_cell_floor_iff (x y : ℚ) (h : perlinDefined x y) :
    perlinChecked x y = some (perlin x y) ∧
      (CellIsFloor x y ↔
        (0 ≤ x ∨ ((⌊x⌋ : ℤ) : ℚ) = x) ∧ (0 ≤ y ∨ ((⌊y⌋ : ℤ) : ℚ) = y)) :=
  ⟨by rw [perlinChecked, if_pos h], cell_floor_iff x y⟩

theorem toInt_half : toInt (1 / 2) = 0 := by
  have hf : ⌊(1 / 2 : ℚ)⌋ = 0 := by
    rw [Int.floor_eq_iff]
    norm_num
  have hpos : (0 : ℚ) ≤ 1 / 2 := by norm_num
  rw [toInt, if_pos hpos, hf]

theorem toInt_neg_half : toInt (-1 / 2) = 0 := by
  have hc : ⌈(-1 / 2 : ℚ)⌉ = 0 := by
    rw [Int.ceil_eq_iff]
    norm_num
  have hneg : ¬ (0 : ℚ) ≤ -1 / 2 := by norm_num
  rw [toInt, if_neg hneg, hc]

theorem toInt_zero : toInt 0 = 0 := by
  simp [toInt]

theorem perlinDefined_half : perlinDefined (1 / 2) (-1 / 2) := by
  unfold perlinDefined
  rw [toInt_half, toInt_neg_half]
  decide

/-- The query point `(1/2, -1/2)`. -/
theorem perlin_cell_floor_iff_witness :
    perlinDefined (1 / 2) (-1 / 2) ∧
      perlinChecked (1 / 2) (-1 / 2) = some (perlin (1 / 2) (-1 / 2)) ∧
      (CellIsFloor (1 / 2) (-1 / 2) ↔
        (0 ≤ (1 / 2 : ℚ) ∨ ((⌊(1 / 2 : ℚ)⌋ : ℤ) : ℚ) = 1 / 2) ∧
          (0 ≤ (-1 / 2 : ℚ) ∨ ((⌊(-1 / 2 : ℚ)⌋ : ℤ) : ℚ) = -1 / 2)) :=
  ⟨perlinDefined_half, perlin_cell_floor_iff (1 / 2) (-1 / 2) perlinDefined_half⟩

/-- Claim C9, counterexample: At `x = -1/2`, where the `int` arithmetic of `perlin` is
defined, the cast gives `x0 = 0`, not `floor(-1/2) = -1`, and the weight `sx = -1/2`
is outside `[0, 1)`. -/
theorem perlin_cell_counterexample :
    perlinDefined (-1 / 2) 0 ∧
      (perlinCell (-1 / 2) 0).x0 = 0 ∧ ⌊(-1 / 2 : ℚ)⌋ = -1 ∧
      (perlinCell (-1 / 2) 0).sx = -1 / 2 ∧ ¬ CellIsFloor (-1 / 2) 0 := by
  have hd : perlinDefined (-1 / 2) 0 := by
    unfold perlinDefined
    rw [toInt_neg_half, toInt_zero]
    decide
  have hf : ⌊(-1 / 2 : ℚ)⌋ = -1 := by
    rw [Int.floor_eq_iff]
    norm_num
  have hx0 : (perlinCell (-1 / 2) 0).x0 = 0 := toInt_neg_half
  refine ⟨hd, hx0, hf, ?_, ?_⟩
  · have : (perlinCell (-1 / 2) 0).sx = -1 / 2 - (((perlinCell (-1 / 2) 0).x0 : ℤ) : ℚ) := rfl
    rw [this, hx0]
    norm_num
  · intro h
    have h1 := h.1
    rw [hx0, hf] at h1
    exact absurd h1 (by decide)

end ThesisOGL
